import Mathlib

/-!
Verification of `STMiner/Algorithm/distance.py`.

The Python module computes distances between Gaussian-mixture models (GMMs)
fitted to spatial gene-expression patterns, and assembles labeled pairwise
distance matrices over gene collections.  This file is a shallow embedding of
that module: NumPy float arrays become real vectors/matrices from Mathlib,
`np.linalg.det`/`inv` become `Matrix.det`/nonsingular inverse, Python lists
and dicts become Lean lists, and Python exceptions become an `Except` error
channel.  Real-number junk-value conventions (division by zero yields `0`)
stand in for IEEE NaN where NumPy would silently produce NaN; each such place
is noted in the corresponding doc comment.
-/

namespace STMiner

/-- Errors that can surface from the distance module (Python exceptions).
`indexError` models a NumPy/Python out-of-range indexing error;
`shapeMismatchError` and `emptySelectionError` are the error classes the
specification postulates for the component matcher and the spatial
projector. -/
inductive StmError where
  | indexError
  | shapeMismatchError
  | emptySelectionError

/-- A Gaussian mixture model, as read by `distribution_distance`:
the `weights_`, `means_` and `covariances_` attributes of a fitted
`sklearn` GMM.  `d` is the spatial dimension.  The three lists have one
entry per mixture component. -/
structure GMM (d : ℕ) where
  weights : List ℝ
  means : List (Fin d → ℝ)
  covariances : List (Matrix (Fin d) (Fin d) ℝ)
  means_length : means.length = weights.length
  covariances_length : covariances.length = weights.length

instance {d : ℕ} : Inhabited (GMM d) :=
  ⟨⟨[], [], [], rfl, rfl⟩⟩

/-- `n_components = gmm1_weights.size` in `distribution_distance`. -/
def GMM.nComponents {d : ℕ} (g : GMM d) : ℕ := g.weights.length

/-- Array access `weights_[i]` (in-range accesses only are exercised;
the default is junk). -/
def GMM.weightAt {d : ℕ} (g : GMM d) (i : ℕ) : ℝ := g.weights.getD i 0

/-- Array access `means_[i]`. -/
def GMM.meanAt {d : ℕ} (g : GMM d) (i : ℕ) : Fin d → ℝ := g.means.getD i 0

/-- Array access `covariances_[i]`. -/
def GMM.covAt {d : ℕ} (g : GMM d) (i : ℕ) : Matrix (Fin d) (Fin d) ℝ :=
  g.covariances.getD i 0

/-- Shallow embedding of `get_hellinger_distance` (distance.py lines 52-81).
`x ^ (0.25 : ℝ)` models `np.power(x, 0.25)` and `Real.sqrt` models
`np.sqrt` (the determinants are positive in every use the claims exercise,
so the NaN branches of the NumPy functions are never taken).  The matrix
expression `(a + b) / 2` is elementwise halving, `(2⁻¹ : ℝ) • (a + b)`. -/
noncomputable def get_hellinger_distance {d : ℕ}
    (gmm1_covs : Matrix (Fin d) (Fin d) ℝ) (gmm1_means : Fin d → ℝ)
    (gmm2_covs : Matrix (Fin d) (Fin d) ℝ) (gmm2_means : Fin d → ℝ) : ℝ :=
  let mean_cov := (2⁻¹ : ℝ) • (gmm1_covs + gmm2_covs)
  let mean_cov_det := mean_cov.det
  let mean_cov_inv := mean_cov⁻¹
  let gmm1_cov_det := gmm1_covs.det
  let gmm2_cov_det := gmm2_covs.det
  let means_diff := gmm1_means - gmm2_means
  let first_term :=
    Real.exp (-(Matrix.dotProduct means_diff (mean_cov_inv.mulVec means_diff)) / 8)
  let second_term :=
    (gmm1_cov_det ^ (0.25 : ℝ) * gmm2_cov_det ^ (0.25 : ℝ)) / Real.sqrt mean_cov_det
  Real.sqrt |1 - first_term * second_term|

/-- Modelled from the spec: `linear_sum` is imported from
`STMiner.Algorithm.algorithm`, which is not among the given sources.  The
specification describes it (the ExactAssignmentSolver) as an exact
minimum-cost one-to-one assignment over a cost matrix
(Hungarian/Jonker-Volgenant), returning the total matched cost; on a square
matrix that is the minimum over permutations of the sum of selected
entries.  The same semantics models `scipy.optimize.linear_sum_assignment`
followed by `d[assignment].sum()` on a square matrix. -/
noncomputable def linear_sum {n : ℕ} (M : Fin n → Fin n → ℝ) : ℝ :=
  Finset.inf' Finset.univ Finset.univ_nonempty
    (fun σ : Equiv.Perm (Fin n) => ∑ i, M i (σ i))

/-- A single NumPy 2-D array element assignment `arr[i, j] = v` on an array
modelled as a total function. -/
def setEntry (f : ℕ → ℕ → ℝ) (i j : ℕ) (v : ℝ) : ℕ → ℕ → ℝ :=
  fun a b => if a = i ∧ b = j then v else f a b

/-- The loop body of `distribution_distance` (lines 34-35):
`hd = get_hellinger_distance(gmm1_covs[i], gmm1_means[i], gmm2_covs[j],
gmm2_means[j])` and the written value `(gmm1_weights[i] + gmm2_weights[j]) * hd`. -/
noncomputable def costEntry {d : ℕ} (first_gmm second_gmm : GMM d) (i j : ℕ) : ℝ :=
  (first_gmm.weightAt i + second_gmm.weightAt j) *
    get_hellinger_distance (first_gmm.covAt i) (first_gmm.meanAt i)
      (second_gmm.covAt j) (second_gmm.meanAt j)

/-- The `distance_array` built by the double loop of `distribution_distance`
(lines 31-35): start from `np.zeros((n_components, n_components))` and set
`distance_array[i, j] = (gmm1_weights[i] + gmm2_weights[j]) * hd`. -/
noncomputable def buildCostArray {d : ℕ} (first_gmm second_gmm : GMM d) : ℕ → ℕ → ℝ :=
  (List.range first_gmm.nComponents).foldl (fun acc i =>
    (List.range first_gmm.nComponents).foldl (fun acc2 j =>
      setEntry acc2 i j (costEntry first_gmm second_gmm i j)) acc)
    (fun _ _ => 0)

/-- The value `linear_sum(distance_array)` returned by `distribution_distance`
on the success path. -/
noncomputable def gmm_distance_value {d : ℕ} (first_gmm second_gmm : GMM d) : ℝ :=
  linear_sum (fun i j : Fin first_gmm.nComponents => buildCostArray first_gmm second_gmm i j)

/-- Shallow embedding of `distribution_distance` (distance.py lines 14-37).
The function performs no shape check: the cost matrix is sized by the FIRST
model's component count alone, and the loop reads `gmm2_weights[j]`,
`gmm2_means[j]`, `gmm2_covs[j]` for `j < n_components(gmm1)`.  When the
second model has fewer components than the first, the first out-of-range
NumPy access raises `IndexError`; that (and only that) is the error path,
modelled by the guard below. -/
noncomputable def distribution_distance {d : ℕ} (first_gmm second_gmm : GMM d) :
    Except StmError ℝ :=
  if first_gmm.nComponents ≤ second_gmm.nComponents then
    Except.ok (gmm_distance_value first_gmm second_gmm)
  else
    Except.error StmError.indexError

/-- The spatial dataset accessor (`adata`): integer spot coordinates
`(obs.x, obs.y)` aligned with, per gene name, the per-spot expression
column `adata[:, var_names == gene].X`. -/
structure AData where
  spots : List (ℕ × ℕ)
  expr : String → List ℝ

/-- Number of rows of the dense grid: `scipy.sparse.coo_matrix` infers the
shape `(max row + 1, max col + 1)` from the coordinates. -/
def gridRows (adata : AData) : ℕ := ((adata.spots.map Prod.fst).foldl max 0) + 1

/-- Number of columns of the dense grid. -/
def gridCols (adata : AData) : ℕ := ((adata.spots.map Prod.snd).foldl max 0) + 1

/-- `coo_matrix((data, (x, y))).todense()`: the dense grid whose `(r, c)`
cell is the sum of the expression values of all spots at coordinate
`(r, c)` (COO-to-dense conversion sums duplicate coordinates). -/
noncomputable def scatterGrid (adata : AData) (gene_name : String) : ℕ → ℕ → ℝ :=
  fun r c =>
    (((adata.spots.zip (adata.expr gene_name)).filter
        (fun p => p.1.1 = r ∧ p.1.2 = c)).map Prod.snd).sum

/-- `np.round`: round half to even (banker's rounding), NumPy's rounding
rule, as opposed to Lean's `round` which rounds halves up. -/
noncomputable def roundHalfEven (x : ℝ) : ℤ :=
  if Int.fract x = 2⁻¹ then 2 * round (x / 2) else round x

/-- The dense integer array produced by `get_exp_array` (distance.py lines
194-205).  With `remove_low_exp_spots`, NumPy computes
`np.mean(dense_array[dense_array != 0])` — the sum of the nonzero cells of
the grid divided by their count.  When the selection is empty NumPy yields
NaN (with a `RuntimeWarning`, not an exception) and NaN propagates through
`np.maximum` and the integer cast; the real-number model's `0/0 = 0` junk
value stands in for that NaN.  No exception is ever raised. -/
noncomputable def get_exp_array_val (adata : AData) (gene_name : String)
    (remove_low_exp_spots : Bool) : ℕ → ℕ → ℤ :=
  let R := gridRows adata
  let C := gridCols adata
  let dense := scatterGrid adata gene_name
  let nonzeroCells :=
    ((Finset.range R) ×ˢ (Finset.range C)).filter (fun p => dense p.1 p.2 ≠ 0)
  let corrected :=
    if remove_low_exp_spots then
      fun r c => max (dense r c - (∑ p ∈ nonzeroCells, dense p.1 p.2) / nonzeroCells.card) 0
    else dense
  fun r c => roundHalfEven (corrected r c)

/-- Shallow embedding of `get_exp_array` with its (degenerate) error
channel: the source contains no `raise`, and NumPy raises no exception on
an all-zero gene even when `remove_low_exp_spots` is requested (the empty
mean is NaN, a warning), so the result is `Except.ok` for every input. -/
noncomputable def get_exp_array (adata : AData) (gene_name : String)
    (remove_low_exp_spots : Bool) : Except StmError (ℕ → ℕ → ℤ) :=
  Except.ok (get_exp_array_val adata gene_name remove_low_exp_spots)

/-- `mse(arr_i, arr_j) = np.mean(np.square(arr_i - arr_j))` (distance.py
lines 148-150) over `R × C` grids. -/
noncomputable def mse (R C : ℕ) (arr_i arr_j : ℕ → ℕ → ℤ) : ℝ :=
  (∑ r ∈ Finset.range R, ∑ c ∈ Finset.range C,
    (((arr_i r c - arr_j r c : ℤ) : ℝ)) ^ 2) / (R * C)

/-- `scipy.spatial.distance.cdist(A, B)`: the all-pairs Euclidean distance
matrix between the rows (length-`C` vectors) of the two grids. -/
noncomputable def cdist (C : ℕ) (A B : ℕ → ℕ → ℤ) : ℕ → ℕ → ℝ :=
  fun i j => Real.sqrt (∑ c ∈ Finset.range C, ((A i c : ℝ) - (B j c : ℝ)) ^ 2)

/-- The per-pair computation of `build_ot_distance_array` (lines 187-189):
`d = cdist(get_exp_array(adata, g1), get_exp_array(adata, g2))`, solve the
square assignment problem exactly, and sum the matched costs. -/
noncomputable def ot_distance (adata : AData) (gene1 gene2 : String) : ℝ :=
  linear_sum (fun i j : Fin (gridRows adata) =>
    cdist (gridCols adata) (get_exp_array_val adata gene1 false)
      (get_exp_array_val adata gene2 false) i j)

/-- The labeled distance matrix (`pd.DataFrame(0, index=gene_list,
columns=gene_list)`): an ordered label list used for both dimensions plus
a backing array. -/
structure DistanceArray where
  labels : List String
  entry : ℕ → ℕ → ℝ

/-- A pandas label-based assignment
`distance_array.loc[labels[i], labels[j]] = v`: every cell whose row label
equals `a` and whose column label equals `b` is set. -/
def locSet (labels : List String) (f : ℕ → ℕ → ℝ) (a b : String) (v : ℝ) :
    ℕ → ℕ → ℝ :=
  fun r c => if labels.getD r "" = a ∧ labels.getD c "" = b then v else f r c

/-- The double loop shared verbatim by every `build_*_distance_array`
variant (e.g. lines 95-99, 138-144, 184-190): for every ordered pair
`(i, j)` with `i != j` write `metric i j` into the labeled cell; the
diagonal keeps its zero default. -/
def buildPairwise (labels : List String) (metric : ℕ → ℕ → ℝ) : ℕ → ℕ → ℝ :=
  (List.range labels.length).foldl (fun acc i =>
    (List.range labels.length).foldl (fun acc2 j =>
      if i ≠ j then
        locSet labels acc2 (labels.getD i "") (labels.getD j "") (metric i j)
      else acc2) acc)
    (fun _ _ => 0)

/-- Shallow embedding of `build_gmm_distance_array` (lines 84-100).  The
gene order is the dict's key order; Python dict keys are unique, so the
lookup `gmm_dict[gene_list[i]]` is positional.  The loop raises the first
time `distribution_distance` does, i.e. exactly when some computed ordered
pair has `n_components` decreasing; otherwise the full labeled matrix is
returned. -/
noncomputable def build_gmm_distance_array {d : ℕ} (gmm_dict : List (String × GMM d)) :
    Except StmError DistanceArray :=
  let gene_list := gmm_dict.map Prod.fst
  if ∀ i ∈ List.range gmm_dict.length, ∀ j ∈ List.range gmm_dict.length, i ≠ j →
      (gmm_dict.getD i default).2.nComponents ≤ (gmm_dict.getD j default).2.nComponents then
    Except.ok ⟨gene_list, buildPairwise gene_list (fun i j =>
      gmm_distance_value (gmm_dict.getD i default).2 (gmm_dict.getD j default).2)⟩
  else
    Except.error StmError.indexError

/-- Shallow embedding of `build_mse_distance_array` (lines 131-145): the
metric is `mse` of the two genes' spatial arrays (`get_exp_array` with the
default `remove_low_exp_spots=False`). -/
noncomputable def build_mse_distance_array (adata : AData) (gene_list : List String) :
    DistanceArray :=
  ⟨gene_list, buildPairwise gene_list (fun i j =>
    mse (gridRows adata) (gridCols adata)
      (get_exp_array_val adata (gene_list.getD i "") false)
      (get_exp_array_val adata (gene_list.getD j "") false))⟩

/-- Shallow embedding of `build_ot_distance_array` (lines 180-191). -/
noncomputable def build_ot_distance_array (adata : AData) (gene_list : List String) :
    DistanceArray :=
  ⟨gene_list, buildPairwise gene_list (fun i j =>
    ot_distance adata (gene_list.getD i "") (gene_list.getD j ""))⟩

/-- Shallow embedding of `compare_gmm_distance` (lines 103-112): compute the
distance from the query model to every entry of the dict (aborting with the
first raised error), then sort ascending by distance
(`df.sort_values(0)`). -/
noncomputable def compare_gmm_distance {d : ℕ} (gmm : GMM d)
    (gmm_dict : List (String × GMM d)) : Except StmError (List (String × ℝ)) :=
  (gmm_dict.mapM (fun p => (distribution_distance gmm p.2).map (fun v => (p.1, v)))).map
    (fun l => l.mergeSort (fun p q => decide (p.2 ≤ q.2)))

/-! ### Concrete inputs used by witnesses and counterexamples -/

/-- The all-zero mean vector in one dimension. -/
def vec0 : Fin 1 → ℝ := fun _ => 0

/-- A one-component model: weight `1`, mean `0`, identity covariance. -/
def oneGMM : GMM 1 := ⟨[1], [vec0], [1], rfl, rfl⟩

/-- A two-component model (all components standard). -/
noncomputable def gmmK2 : GMM 1 := ⟨[2⁻¹, 2⁻¹], [vec0, vec0], [1, 1], rfl, rfl⟩

/-- A three-component model (all components standard). -/
noncomputable def gmmK3 : GMM 1 := ⟨[3⁻¹, 3⁻¹, 3⁻¹], [vec0, vec0, vec0], [1, 1, 1], rfl, rfl⟩

/-- A two-component model agreeing with `gmmB3` on the first component. -/
noncomputable def gmmB2 : GMM 1 := ⟨[2⁻¹, 4⁻¹], [vec0, vec0], [1, 1], rfl, rfl⟩

/-- A three-component model agreeing with `gmmB2` on the first component
and differing afterwards. -/
noncomputable def gmmB3 : GMM 1 := ⟨[2⁻¹, 5, 7], [vec0, vec0, vec0], [1, 1, 1], rfl, rfl⟩

/-- A tiny dataset: one spot at the origin, every gene expressed with
value 1 there. -/
def adataEx : AData := ⟨[(0, 0)], fun _ => [1]⟩

/-- A dataset in which every gene has zero observed (nonzero) spots. -/
def adataZero : AData := ⟨[(0, 0)], fun _ => [0]⟩

end STMiner

namespace STMiner

/-! ### Evaluation lemmas for the array-building loops -/

theorem getD_lt (l : List String) {a : ℕ} (ha : a < l.length) : l.getD a "" = l[a] := by
  rw [List.getD_eq_getElem?_getD, List.getElem?_eq_getElem ha]
  rfl

theorem getD_inj (labels : List String) (hnd : labels.Nodup) {a i : ℕ}
    (ha : a < labels.length) (hi : i < labels.length) :
    labels.getD a "" = labels.getD i "" ↔ a = i := by
  rw [getD_lt labels ha, getD_lt labels hi]
  exact hnd.getElem_inj_iff

theorem locSet_eval (labels : List String) (hnd : labels.Nodup) {i j a b : ℕ}
    (hi : i < labels.length) (hj : j < labels.length)
    (ha : a < labels.length) (hb : b < labels.length)
    (f : ℕ → ℕ → ℝ) (v : ℝ) :
    locSet labels f (labels.getD i "") (labels.getD j "") v a b
      = if a = i ∧ b = j then v else f a b := by
  unfold locSet
  simp only [getD_inj labels hnd ha hi, getD_inj labels hnd hb hj]

theorem innerFold_setEntry_apply (i : ℕ) (v : ℕ → ℕ → ℝ) (L : List ℕ)
    (acc : ℕ → ℕ → ℝ) (a b : ℕ) :
    (L.foldl (fun acc2 j => setEntry acc2 i j (v i j)) acc) a b
      = if a = i ∧ b ∈ L then v i b else acc a b := by
  induction L generalizing acc with
  | nil => simp
  | cons j L ih =>
    rw [List.foldl_cons, ih]
    simp only [setEntry, List.mem_cons]
    by_cases hai : a = i
    · subst hai
      by_cases hbL : b ∈ L
      · simp [hbL]
      · by_cases hbj : b = j
        · subst hbj; simp [hbL]
        · simp [hbL, hbj]
    · simp [hai]

theorem nestedFold_setEntry_apply (v : ℕ → ℕ → ℝ) (LJ LI : List ℕ)
    (acc : ℕ → ℕ → ℝ) (a b : ℕ) :
    (LI.foldl (fun acc i => LJ.foldl (fun acc2 j => setEntry acc2 i j (v i j)) acc) acc) a b
      = if a ∈ LI ∧ b ∈ LJ then v a b else acc a b := by
  induction LI generalizing acc with
  | nil => simp
  | cons i LI ih =>
    rw [List.foldl_cons, ih, innerFold_setEntry_apply]
    simp only [List.mem_cons]
    by_cases haL : a ∈ LI
    · by_cases hbJ : b ∈ LJ
      · simp [haL, hbJ]
      · simp [haL, hbJ]
    · by_cases hai : a = i
      · subst hai; simp [haL]
      · simp [haL, hai]

theorem buildCostArray_apply {d : ℕ} (g1 g2 : GMM d) (a b : ℕ) :
    buildCostArray g1 g2 a b
      = if a < g1.nComponents ∧ b < g1.nComponents then costEntry g1 g2 a b else 0 := by
  unfold buildCostArray
  rw [nestedFold_setEntry_apply (costEntry g1 g2)]
  simp [List.mem_range]

theorem innerFold_locSet_apply (labels : List String) (metric : ℕ → ℕ → ℝ)
    (hnd : labels.Nodup) {i a b : ℕ}
    (hi : i < labels.length) (ha : a < labels.length) (hb : b < labels.length)
    (L : List ℕ) (hL : ∀ x ∈ L, x < labels.length) (acc : ℕ → ℕ → ℝ) :
    (L.foldl (fun acc2 j =>
        if i ≠ j then
          locSet labels acc2 (labels.getD i "") (labels.getD j "") (metric i j)
        else acc2) acc) a b
      = if a = i ∧ b ∈ L ∧ b ≠ i then metric i b else acc a b := by
  induction L generalizing acc with
  | nil => simp
  | cons j L ih =>
    have hj : j < labels.length := hL j (List.mem_cons_self _ _)
    have hL2 : ∀ x ∈ L, x < labels.length := fun x hx => hL x (List.mem_cons_of_mem _ hx)
    rw [List.foldl_cons, ih hL2]
    by_cases hij : i ≠ j
    · rw [if_pos hij, locSet_eval labels hnd hi hj ha hb]
      simp only [List.mem_cons]
      have hji : ¬j = i := fun h => hij h.symm
      by_cases h1 : a = i
      · by_cases h4 : b = i
        · have h2 : ¬b = j := fun h => hij (h4 ▸ h)
          simp [h1, h2, h4, hij]
        · by_cases h3 : b ∈ L
          · simp [h1, h3, h4]
          · by_cases h2 : b = j
            · simp [h1, h2, h3, h4, hji]
            · simp [h1, h2, h3, h4]
      · simp [h1]
    · rw [if_neg hij]
      push_neg at hij
      subst hij
      simp only [List.mem_cons]
      by_cases h1 : a = i
      · by_cases h4 : b = i
        · simp [h1, h4]
        · have h2 : ¬b = i := h4
          by_cases h3 : b ∈ L
          · simp [h1, h3, h4]
          · simp [h1, h2, h3, h4]
      · simp [h1]

theorem outerFold_locSet_apply (labels : List String) (metric : ℕ → ℕ → ℝ)
    (hnd : labels.Nodup) {a b : ℕ}
    (ha : a < labels.length) (hb : b < labels.length)
    (LI : List ℕ) (hLI : ∀ x ∈ LI, x < labels.length) (acc : ℕ → ℕ → ℝ) :
    (LI.foldl (fun acc i => (List.range labels.length).foldl (fun acc2 j =>
        if i ≠ j then
          locSet labels acc2 (labels.getD i "") (labels.getD j "") (metric i j)
        else acc2) acc) acc) a b
      = if a ∈ LI ∧ a ≠ b then metric a b else acc a b := by
  induction LI generalizing acc with
  | nil => simp
  | cons i LI ih =>
    have hi : i < labels.length := hLI i (List.mem_cons_self _ _)
    have hLI2 : ∀ x ∈ LI, x < labels.length := fun x hx => hLI x (List.mem_cons_of_mem _ hx)
    rw [List.foldl_cons, ih hLI2,
      innerFold_locSet_apply labels metric hnd hi ha hb _
        (fun x hx => List.mem_range.mp hx) acc]
    simp only [List.mem_range, List.mem_cons]
    by_cases h1 : a ∈ LI <;> by_cases h2 : a = i <;> by_cases h3 : a = b <;>
      simp_all <;> tauto

theorem buildPairwise_apply (labels : List String) (metric : ℕ → ℕ → ℝ)
    (hnd : labels.Nodup) {a b : ℕ}
    (ha : a < labels.length) (hb : b < labels.length) :
    buildPairwise labels metric a b = if a = b then 0 else metric a b := by
  unfold buildPairwise
  rw [outerFold_locSet_apply labels metric hnd ha hb _ (fun x hx => List.mem_range.mp hx)]
  simp only [List.mem_range, ha, true_and]
  by_cases h : a = b
  · simp [h]
  · simp [h]

/-! ### Facts about the Hellinger kernel -/

theorem half_smul_add_self {d : ℕ} (c : Matrix (Fin d) (Fin d) ℝ) :
    (2⁻¹ : ℝ) • (c + c) = c := by
  rw [← two_smul ℝ c, smul_smul]
  norm_num

/-- The Hellinger kernel of a component with itself is `0` (the means cancel
and the determinant terms collapse), provided the covariance has positive
determinant. -/
theorem hellinger_self {d : ℕ} (c : Matrix (Fin d) (Fin d) ℝ) (m : Fin d → ℝ)
    (hdet : 0 < c.det) :
    get_hellinger_distance c m c m = 0 := by
  have heq : get_hellinger_distance c m c m
      = Real.sqrt |1 - Real.exp (-(Matrix.dotProduct (m - m)
            ((((2⁻¹ : ℝ) • (c + c))⁻¹).mulVec (m - m))) / 8) *
          ((c.det ^ (0.25 : ℝ) * c.det ^ (0.25 : ℝ)) /
            Real.sqrt ((2⁻¹ : ℝ) • (c + c)).det)| := rfl
  rw [heq, half_smul_add_self, sub_self, Matrix.zero_dotProduct, neg_zero, zero_div,
    Real.exp_zero, ← Real.rpow_add hdet]
  rw [show (0.25 : ℝ) + 0.25 = 1 / 2 by norm_num, ← Real.sqrt_eq_rpow,
    div_self (Real.sqrt_ne_zero'.mpr hdet)]
  simp

/-- A positive multiple of a positive-definite matrix is positive
definite. -/
theorem PosDef.pos_smul {d : ℕ} {M : Matrix (Fin d) (Fin d) ℝ} (hM : M.PosDef)
    {c : ℝ} (hc : 0 < c) : (c • M).PosDef := by
  refine ⟨?_, fun x hx => ?_⟩
  · show Matrix.conjTranspose (c • M) = c • M
    rw [Matrix.conjTranspose_smul, star_trivial, hM.1.eq]
  · rw [Matrix.smul_mulVec_assoc, Matrix.dotProduct_smul, smul_eq_mul]
    exact mul_pos hc (hM.2 x hx)

/-- The real spectral theorem with the `RCLike` coercion removed. -/
theorem spectral_real {d : ℕ} {C : Matrix (Fin d) (Fin d) ℝ} (hC : C.IsHermitian) :
    C = (hC.eigenvectorUnitary : Matrix (Fin d) (Fin d) ℝ) *
        Matrix.diagonal hC.eigenvalues *
        star (hC.eigenvectorUnitary : Matrix (Fin d) (Fin d) ℝ) := by
  have h := hC.spectral_theorem
  rwa [RCLike.ofReal_real_eq_id, Function.id_comp] at h

theorem unitary_conj_det {d : ℕ} (U M : Matrix (Fin d) (Fin d) ℝ)
    (hU : U * star U = 1) : (U * M * star U).det = M.det := by
  rw [Matrix.det_mul, Matrix.det_mul]
  calc U.det * M.det * (star U).det
      = M.det * (U.det * (star U).det) := by ring
    _ = M.det * (U * star U).det := by rw [Matrix.det_mul]
    _ = M.det := by rw [hU, Matrix.det_one, mul_one]

theorem det_eq_prod_eig_real {d : ℕ} {C : Matrix (Fin d) (Fin d) ℝ}
    (hC : C.IsHermitian) : C.det = ∏ i, hC.eigenvalues i := by
  have h := hC.det_eq_prod_eigenvalues
  simpa [RCLike.ofReal_real_eq_id] using h

theorem det_half_one_add_real {d : ℕ} {C : Matrix (Fin d) (Fin d) ℝ}
    (hC : C.IsHermitian) :
    ((2⁻¹ : ℝ) • (1 + C)).det = ∏ i, (2⁻¹ * (1 + hC.eigenvalues i)) := by
  have hU : (hC.eigenvectorUnitary : Matrix (Fin d) (Fin d) ℝ) *
      star (hC.eigenvectorUnitary : Matrix (Fin d) (Fin d) ℝ) = 1 :=
    Matrix.mem_unitaryGroup_iff.mp hC.eigenvectorUnitary.2
  have hdecomp : (hC.eigenvectorUnitary : Matrix (Fin d) (Fin d) ℝ) *
        Matrix.diagonal (fun i => 2⁻¹ * (1 + hC.eigenvalues i)) *
        star (hC.eigenvectorUnitary : Matrix (Fin d) (Fin d) ℝ)
      = (2⁻¹ : ℝ) • (1 + C) := by
    rw [show (fun i => 2⁻¹ * (1 + hC.eigenvalues i))
        = (2⁻¹ : ℝ) • (fun i => (1 : ℝ) + hC.eigenvalues i) from rfl]
    rw [Matrix.diagonal_smul]
    rw [show Matrix.diagonal (fun i => (1 : ℝ) + hC.eigenvalues i)
        = 1 + Matrix.diagonal hC.eigenvalues by
      rw [← Matrix.diagonal_one, Matrix.diagonal_add]]
    simp only [Matrix.mul_smul, Matrix.smul_mul, Matrix.mul_add, Matrix.add_mul,
      Matrix.one_mul, Matrix.mul_one]
    rw [hU, ← spectral_real hC]
  rw [← hdecomp, unitary_conj_det _ _ hU, Matrix.det_diagonal]

theorem sqrt_prod_eq {d : ℕ} (μ : Fin d → ℝ) (hμ : ∀ i, 0 ≤ μ i) :
    Real.sqrt (∏ i, μ i) = ∏ i, Real.sqrt (μ i) := by
  rw [show (∏ i, μ i) = (∏ i, Real.sqrt (μ i)) ^ 2 by
    rw [← Finset.prod_pow]
    exact Finset.prod_congr rfl (fun i _ => (Real.sq_sqrt (hμ i)).symm)]
  exact Real.sqrt_sq (Finset.prod_nonneg (fun i _ => Real.sqrt_nonneg _))

/-- The Minkowski-type determinant bound used for the Hellinger `[0,1]`
range: for positive-definite `A`, `B` one has
`sqrt (det A * det B) ≤ det ((A + B) / 2)`. -/
theorem det_avg_ge_sqrt {d : ℕ} {A B : Matrix (Fin d) (Fin d) ℝ}
    (hA : A.PosDef) (hB : B.PosDef) :
    Real.sqrt (A.det * B.det) ≤ ((2⁻¹ : ℝ) • (A + B)).det := by
  classical
  have hSps : (hA.posSemidef.sqrt).PosSemidef := hA.posSemidef.posSemidef_sqrt
  set S := hA.posSemidef.sqrt with hS_def
  have hSS : S * S = A := hA.posSemidef.sqrt_mul_self
  have hdetS : S.det * S.det = A.det := by rw [← Matrix.det_mul, hSS]
  have hdetA : 0 < A.det := hA.det_pos
  have hdetB : 0 < B.det := hB.det_pos
  have hSdet_ne : S.det ≠ 0 := by
    intro h
    rw [h, mul_zero] at hdetS
    exact absurd hdetS.symm (ne_of_gt hdetA)
  have hS1 : S * S⁻¹ = 1 := Matrix.mul_nonsing_inv S (isUnit_iff_ne_zero.mpr hSdet_ne)
  have hS1' : S⁻¹ * S = 1 := Matrix.nonsing_inv_mul S (isUnit_iff_ne_zero.mpr hSdet_ne)
  have hSinvH : (S⁻¹).IsHermitian := hSps.isHermitian.inv
  set C := S⁻¹ * B * S⁻¹ with hC_def
  have hCps : C.PosSemidef := by
    have h := hB.posSemidef.mul_mul_conjTranspose_same S⁻¹
    rwa [hSinvH.eq] at h
  have hdetC : C.det = B.det / A.det := by
    rw [hC_def, Matrix.det_mul, Matrix.det_mul, Matrix.det_nonsing_inv,
      Ring.inverse_eq_inv, ← hdetS]
    field_simp
  have hSCS : S * C * S = B := by
    rw [hC_def]
    calc S * (S⁻¹ * B * S⁻¹) * S = (S * S⁻¹) * (B * (S⁻¹ * S)) := by
          simp only [Matrix.mul_assoc]
      _ = B := by rw [hS1, hS1', Matrix.one_mul, Matrix.mul_one]
  have hAB : A + B = S * (1 + C) * S := by
    rw [Matrix.mul_add, Matrix.mul_one, Matrix.add_mul, hSS, hSCS]
  have hμ : ∀ i, 0 ≤ hCps.isHermitian.eigenvalues i := hCps.eigenvalues_nonneg
  -- determinant of the halved sum via the decomposition
  have hdet_step : ((2⁻¹ : ℝ) • (A + B)).det
      = A.det * ((2⁻¹ : ℝ) • (1 + C)).det := by
    rw [hAB, show (2⁻¹ : ℝ) • (S * (1 + C) * S) = S * ((2⁻¹ : ℝ) • (1 + C)) * S by
      simp only [Matrix.mul_smul, Matrix.smul_mul]]
    rw [Matrix.det_mul, Matrix.det_mul, ← hdetS]
    ring
  -- per-eigenvalue AM-GM
  have hAMGM : Real.sqrt C.det ≤ ((2⁻¹ : ℝ) • (1 + C)).det := by
    rw [det_eq_prod_eig_real hCps.isHermitian, det_half_one_add_real hCps.isHermitian,
      sqrt_prod_eq _ hμ]
    refine Finset.prod_le_prod (fun i _ => Real.sqrt_nonneg _) (fun i _ => ?_)
    nlinarith [sq_nonneg (1 - Real.sqrt (hCps.isHermitian.eigenvalues i)),
      Real.sq_sqrt (hμ i), Real.sqrt_nonneg (hCps.isHermitian.eigenvalues i)]
  -- assemble
  have hfinal : Real.sqrt (A.det * B.det) = A.det * Real.sqrt C.det := by
    rw [hdetC, show A.det * B.det = A.det ^ 2 * (B.det / A.det) by field_simp; ring,
      Real.sqrt_mul (sq_nonneg _), Real.sqrt_sq (le_of_lt hdetA)]
  rw [hfinal, hdet_step]
  exact mul_le_mul_of_nonneg_left hAMGM (le_of_lt hdetA)

theorem weightAt_nonneg {d : ℕ} (g : GMM d) (hw : ∀ w ∈ g.weights, 0 ≤ w) {i : ℕ}
    (hi : i < g.nComponents) : 0 ≤ g.weightAt i := by
  unfold GMM.weightAt
  rw [List.getD_eq_getElem?_getD, List.getElem?_eq_getElem hi, Option.getD_some]
  exact hw _ (List.getElem_mem hi)

theorem covAt_posDef {d : ℕ} (g : GMM d) (hcov : ∀ c ∈ g.covariances, c.PosDef) {i : ℕ}
    (hi : i < g.nComponents) : (g.covAt i).PosDef := by
  unfold GMM.covAt
  have hi2 : i < g.covariances.length := by rw [g.covariances_length]; exact hi
  rw [List.getD_eq_getElem?_getD, List.getElem?_eq_getElem hi2, Option.getD_some]
  exact hcov _ (List.getElem_mem hi2)

theorem hellinger_nonneg {d : ℕ} (c1 : Matrix (Fin d) (Fin d) ℝ) (m1 : Fin d → ℝ)
    (c2 : Matrix (Fin d) (Fin d) ℝ) (m2 : Fin d → ℝ) :
    0 ≤ get_hellinger_distance c1 m1 c2 m2 :=
  Real.sqrt_nonneg _

/-! ### The claims -/

/-- C8: for every two valid mean/covariance pairs, the Hellinger divergence
computed by `get_hellinger_distance` is symmetric in its arguments (here
proved for all arguments, valid or not). -/
theorem hellinger_distance_symm {d : ℕ} (c1 : Matrix (Fin d) (Fin d) ℝ) (m1 : Fin d → ℝ)
    (c2 : Matrix (Fin d) (Fin d) ℝ) (m2 : Fin d → ℝ) :
    get_hellinger_distance c1 m1 c2 m2 = get_hellinger_distance c2 m2 c1 m1 := by
  have e1 : get_hellinger_distance c1 m1 c2 m2
      = Real.sqrt |1 - Real.exp (-(Matrix.dotProduct (m1 - m2)
            ((((2⁻¹ : ℝ) • (c1 + c2))⁻¹).mulVec (m1 - m2))) / 8) *
          ((c1.det ^ (0.25 : ℝ) * c2.det ^ (0.25 : ℝ)) /
            Real.sqrt ((2⁻¹ : ℝ) • (c1 + c2)).det)| := rfl
  have e2 : get_hellinger_distance c2 m2 c1 m1
      = Real.sqrt |1 - Real.exp (-(Matrix.dotProduct (m2 - m1)
            ((((2⁻¹ : ℝ) • (c2 + c1))⁻¹).mulVec (m2 - m1))) / 8) *
          ((c2.det ^ (0.25 : ℝ) * c1.det ^ (0.25 : ℝ)) /
            Real.sqrt ((2⁻¹ : ℝ) • (c2 + c1)).det)| := rfl
  rw [e1, e2, add_comm c2 c1,
    show m2 - m1 = -(m1 - m2) by rw [neg_sub],
    Matrix.mulVec_neg, Matrix.dotProduct_neg, Matrix.neg_dotProduct, neg_neg,
    mul_comm (c2.det ^ (0.25 : ℝ)) (c1.det ^ (0.25 : ℝ))]

/-- C3: for every two Gaussian components with (symmetric) positive-definite
covariance matrices, the Hellinger divergence computed by
`get_hellinger_distance` lies in the closed interval `[0, 1]`. -/
theorem hellinger_distance_mem_unit_interval {d : ℕ}
    (cov1 cov2 : Matrix (Fin d) (Fin d) ℝ) (m1 m2 : Fin d → ℝ)
    (h1 : cov1.PosDef) (h2 : cov2.PosDef) :
    0 ≤ get_hellinger_distance cov1 m1 cov2 m2 ∧
      get_hellinger_distance cov1 m1 cov2 m2 ≤ 1 := by
  have heq : get_hellinger_distance cov1 m1 cov2 m2
      = Real.sqrt |1 - Real.exp (-(Matrix.dotProduct (m1 - m2)
            ((((2⁻¹ : ℝ) • (cov1 + cov2))⁻¹).mulVec (m1 - m2))) / 8) *
          ((cov1.det ^ (0.25 : ℝ) * cov2.det ^ (0.25 : ℝ)) /
            Real.sqrt ((2⁻¹ : ℝ) • (cov1 + cov2)).det)| := rfl
  have hMpd : ((2⁻¹ : ℝ) • (cov1 + cov2)).PosDef :=
    PosDef.pos_smul (h1.add h2) (by norm_num)
  have hq : 0 ≤ Matrix.dotProduct (m1 - m2)
      ((((2⁻¹ : ℝ) • (cov1 + cov2))⁻¹).mulVec (m1 - m2)) := by
    have h := hMpd.inv.posSemidef.2 (m1 - m2)
    simpa using h
  have ht1 : Real.exp (-(Matrix.dotProduct (m1 - m2)
      ((((2⁻¹ : ℝ) • (cov1 + cov2))⁻¹).mulVec (m1 - m2))) / 8) ≤ 1 := by
    rw [Real.exp_le_one_iff]
    linarith
  have ht1pos : (0 : ℝ) < Real.exp (-(Matrix.dotProduct (m1 - m2)
      ((((2⁻¹ : ℝ) • (cov1 + cov2))⁻¹).mulVec (m1 - m2))) / 8) := Real.exp_pos _
  have hdM : 0 < ((2⁻¹ : ℝ) • (cov1 + cov2)).det := hMpd.det_pos
  have hkey := det_avg_ge_sqrt h1 h2
  have ht2 : cov1.det ^ (0.25 : ℝ) * cov2.det ^ (0.25 : ℝ) /
      Real.sqrt ((2⁻¹ : ℝ) • (cov1 + cov2)).det ≤ 1 := by
    rw [div_le_one (Real.sqrt_pos.mpr hdM), ← Real.mul_rpow h1.det_pos.le h2.det_pos.le]
    calc (cov1.det * cov2.det) ^ (0.25 : ℝ)
        = Real.sqrt (Real.sqrt (cov1.det * cov2.det)) := by
          rw [Real.sqrt_eq_rpow, Real.sqrt_eq_rpow,
            ← Real.rpow_mul (mul_nonneg h1.det_pos.le h2.det_pos.le)]
          norm_num
      _ ≤ Real.sqrt ((2⁻¹ : ℝ) • (cov1 + cov2)).det := Real.sqrt_le_sqrt hkey
  have ht2nonneg : 0 ≤ cov1.det ^ (0.25 : ℝ) * cov2.det ^ (0.25 : ℝ) /
      Real.sqrt ((2⁻¹ : ℝ) • (cov1 + cov2)).det :=
    div_nonneg (mul_nonneg (Real.rpow_nonneg h1.det_pos.le _)
      (Real.rpow_nonneg h2.det_pos.le _)) (Real.sqrt_nonneg _)
  constructor
  · exact Real.sqrt_nonneg _
  · rw [heq]
    have hprod_nonneg : (0 : ℝ) ≤ Real.exp (-(Matrix.dotProduct (m1 - m2)
        ((((2⁻¹ : ℝ) • (cov1 + cov2))⁻¹).mulVec (m1 - m2))) / 8) *
        (cov1.det ^ (0.25 : ℝ) * cov2.det ^ (0.25 : ℝ) /
          Real.sqrt ((2⁻¹ : ℝ) • (cov1 + cov2)).det) :=
      mul_nonneg ht1pos.le ht2nonneg
    have hprod_le : Real.exp (-(Matrix.dotProduct (m1 - m2)
        ((((2⁻¹ : ℝ) • (cov1 + cov2))⁻¹).mulVec (m1 - m2))) / 8) *
        (cov1.det ^ (0.25 : ℝ) * cov2.det ^ (0.25 : ℝ) /
          Real.sqrt ((2⁻¹ : ℝ) • (cov1 + cov2)).det) ≤ 1 := by
      nlinarith
    calc Real.sqrt |1 - Real.exp (-(Matrix.dotProduct (m1 - m2)
            ((((2⁻¹ : ℝ) • (cov1 + cov2))⁻¹).mulVec (m1 - m2))) / 8) *
          ((cov1.det ^ (0.25 : ℝ) * cov2.det ^ (0.25 : ℝ)) /
            Real.sqrt ((2⁻¹ : ℝ) • (cov1 + cov2)).det)|
        ≤ Real.sqrt 1 := Real.sqrt_le_sqrt (abs_le.mpr ⟨by linarith, by linarith⟩)
      _ = 1 := Real.sqrt_one

/-- Witness for C3 at concrete positive-definite input (identity
covariances in dimension 1, means `0` and `1`). -/
theorem hellinger_distance_mem_unit_interval_witness :
    0 ≤ get_hellinger_distance (1 : Matrix (Fin 1) (Fin 1) ℝ) vec0 1 (fun _ => 1) ∧
      get_hellinger_distance (1 : Matrix (Fin 1) (Fin 1) ℝ) vec0 1 (fun _ => 1) ≤ 1 :=
  hellinger_distance_mem_unit_interval 1 1 vec0 (fun _ => 1)
    Matrix.PosDef.one Matrix.PosDef.one

/-- C7: for every valid mixture model (positive-definite covariances,
non-negative weights), `distribution_distance` applied to the model and
itself yields exactly `0`: the diagonal of the cost matrix vanishes, every
entry is non-negative, and the exact assignment picks the diagonal. -/
theorem distribution_distance_self_zero {d : ℕ} (g : GMM d)
    (hcov : ∀ c ∈ g.covariances, c.PosDef) (hw : ∀ w ∈ g.weights, 0 ≤ w) :
    distribution_distance g g = Except.ok (0 : ℝ) := by
  unfold distribution_distance
  rw [if_pos le_rfl]
  congr 1
  unfold gmm_distance_value linear_sum
  have hnonneg : ∀ i j : Fin g.nComponents, 0 ≤ buildCostArray g g i j := by
    intro i j
    rw [buildCostArray_apply, if_pos ⟨i.isLt, j.isLt⟩]
    exact mul_nonneg
      (add_nonneg (weightAt_nonneg g hw i.isLt) (weightAt_nonneg g hw j.isLt))
      (hellinger_nonneg _ _ _ _)
  have hdiag : ∀ i : Fin g.nComponents, buildCostArray g g i i = 0 := by
    intro i
    rw [buildCostArray_apply, if_pos ⟨i.isLt, i.isLt⟩]
    unfold costEntry
    rw [hellinger_self _ _ (covAt_posDef g hcov i.isLt).det_pos, mul_zero]
  apply le_antisymm
  · have h1 := Finset.inf'_le
      (fun σ : Equiv.Perm (Fin g.nComponents) =>
        ∑ i : Fin g.nComponents, buildCostArray g g (↑i) (↑(σ i)))
      (Finset.mem_univ (1 : Equiv.Perm (Fin g.nComponents)))
    have h2 : (∑ i : Fin g.nComponents,
        buildCostArray g g (↑i) (↑((1 : Equiv.Perm (Fin g.nComponents)) i))) = 0 := by
      simp only [Equiv.Perm.one_apply]
      exact Finset.sum_eq_zero (fun i _ => hdiag i)
    rw [h2] at h1
    exact h1
  · exact Finset.le_inf' _ _ (fun σ _ => Finset.sum_nonneg (fun i _ => hnonneg i (σ i)))

/-- Witness for C7 at a concrete one-component model. -/
theorem distribution_distance_self_zero_witness :
    distribution_distance oneGMM oneGMM = Except.ok (0 : ℝ) :=
  distribution_distance_self_zero oneGMM
    (by
      intro c hc
      rw [show oneGMM.covariances = [1] from rfl, List.mem_singleton] at hc
      rw [hc]
      exact Matrix.PosDef.one)
    (by
      intro w hwmem
      rw [show oneGMM.weights = [1] from rfl, List.mem_singleton] at hwmem
      rw [hwmem]
      norm_num)

/-- C2: for every two mixture models with equal component count `K`,
`distribution_distance` returns the minimum total cost of an exact
one-to-one assignment over the `K x K` cost matrix whose `(i, j)` entry is
`(wA_i + wB_j)` times the Hellinger divergence of component `i` of the
first model and component `j` of the second model. -/
theorem distribution_distance_min_assignment {d : ℕ} (g1 g2 : GMM d)
    (hK : g1.nComponents = g2.nComponents) :
    distribution_distance g1 g2 = Except.ok (Finset.inf' Finset.univ Finset.univ_nonempty
      (fun σ : Equiv.Perm (Fin g1.nComponents) =>
        ∑ i : Fin g1.nComponents, (g1.weightAt ↑i + g2.weightAt ↑(σ i)) *
          get_hellinger_distance (g1.covAt ↑i) (g1.meanAt ↑i)
            (g2.covAt ↑(σ i)) (g2.meanAt ↑(σ i)))) := by
  unfold distribution_distance
  rw [if_pos hK.le]
  congr 1
  unfold gmm_distance_value linear_sum
  congr 1
  funext σ
  refine Finset.sum_congr rfl (fun i _ => ?_)
  show buildCostArray g1 g2 (↑i) (↑(σ i)) = _
  rw [buildCostArray_apply, if_pos ⟨i.isLt, (σ i).isLt⟩]
  rfl

/-- Witness for C2 at two concrete one-component models. -/
theorem distribution_distance_min_assignment_witness :
    oneGMM.nComponents = oneGMM.nComponents ∧
      distribution_distance oneGMM oneGMM
        = Except.ok (Finset.inf' Finset.univ Finset.univ_nonempty
            (fun σ : Equiv.Perm (Fin oneGMM.nComponents) =>
              ∑ i : Fin oneGMM.nComponents,
                (oneGMM.weightAt ↑i + oneGMM.weightAt ↑(σ i)) *
                  get_hellinger_distance (oneGMM.covAt ↑i) (oneGMM.meanAt ↑i)
                    (oneGMM.covAt ↑(σ i)) (oneGMM.meanAt ↑(σ i)))) :=
  ⟨rfl, distribution_distance_min_assignment oneGMM oneGMM rfl⟩

/-- Evaluation of `distribution_distance` on the concrete `K=2` vs `K=3`
pair: every written cost entry is zero because all components coincide. -/
theorem gmm_value_K2K3 : gmm_distance_value gmmK2 gmmK3 = 0 := by
  have h2c : ∀ k : ℕ, k < 2 → gmmK2.covAt k = 1 := by
    intro k hk
    interval_cases k <;> rfl
  have h2m : ∀ k : ℕ, k < 2 → gmmK2.meanAt k = vec0 := by
    intro k hk
    interval_cases k <;> rfl
  have h3c : ∀ k : ℕ, k < 2 → gmmK3.covAt k = 1 := by
    intro k hk
    interval_cases k <;> rfl
  have h3m : ∀ k : ℕ, k < 2 → gmmK3.meanAt k = vec0 := by
    intro k hk
    interval_cases k <;> rfl
  have hdet1 : (0 : ℝ) < (1 : Matrix (Fin 1) (Fin 1) ℝ).det := by
    rw [Matrix.det_one]
    norm_num
  have hzero : ∀ i j : Fin gmmK2.nComponents, buildCostArray gmmK2 gmmK3 (↑i) (↑j) = 0 := by
    intro i j
    rw [buildCostArray_apply, if_pos ⟨i.isLt, j.isLt⟩]
    unfold costEntry
    have hi : (i : ℕ) < 2 := i.isLt
    have hj : (j : ℕ) < 2 := j.isLt
    rw [h2c _ hi, h2m _ hi, h3c _ hj, h3m _ hj, hellinger_self 1 vec0 hdet1, mul_zero]
  unfold gmm_distance_value linear_sum
  rw [show (fun σ : Equiv.Perm (Fin gmmK2.nComponents) =>
      ∑ i : Fin gmmK2.nComponents, buildCostArray gmmK2 gmmK3 (↑i) (↑(σ i)))
      = fun _ => (0 : ℝ) from
    funext (fun σ => Finset.sum_eq_zero (fun i _ => hzero i (σ i)))]
  exact Finset.inf'_const _ _

/-- C1 counterexample: two models with component counts 2 and 3; the
matcher does not fail with a shape-mismatch error — it computes and
returns a distance (here `0`). -/
theorem distribution_distance_no_shape_check_counterexample :
    gmmK2.nComponents = 2 ∧ gmmK3.nComponents = 3 ∧
      distribution_distance gmmK2 gmmK3 = Except.ok (0 : ℝ) := by
  refine ⟨rfl, rfl, ?_⟩
  unfold distribution_distance
  rw [if_pos (by decide : gmmK2.nComponents ≤ gmmK3.nComponents), gmm_value_K2K3]

/-- C1 (amended): for two mixture models with unequal component counts,
`distribution_distance` never raises a shape-mismatch error.  When the
second model has at least as many components as the first it computes and
returns a distance (from the truncated cost matrix); when the second model
has fewer components it fails with an index error from the out-of-range
array access. -/
theorem distribution_distance_no_shape_check {d : ℕ} (g1 g2 : GMM d)
    (hne : g1.nComponents ≠ g2.nComponents) :
    distribution_distance g1 g2 ≠ Except.error StmError.shapeMismatchError ∧
      (g1.nComponents ≤ g2.nComponents →
        distribution_distance g1 g2 = Except.ok (gmm_distance_value g1 g2)) ∧
      (g2.nComponents < g1.nComponents →
        distribution_distance g1 g2 = Except.error StmError.indexError) := by
  unfold distribution_distance
  by_cases h : g1.nComponents ≤ g2.nComponents
  · rw [if_pos h]
    exact ⟨fun hc => Except.noConfusion hc, fun _ => rfl,
      fun hlt => absurd h (not_le.mpr hlt)⟩
  · rw [if_neg h]
    refine ⟨fun hc => ?_, fun hle => absurd hle h, fun _ => rfl⟩
    injection hc with h2
    exact StmError.noConfusion h2

/-- Witness for the amended C1 at the concrete `K=2` vs `K=3` pair. -/
theorem distribution_distance_no_shape_check_witness :
    gmmK2.nComponents ≠ gmmK3.nComponents ∧
      distribution_distance gmmK2 gmmK3 ≠ Except.error StmError.shapeMismatchError :=
  ⟨by decide, (distribution_distance_no_shape_check gmmK2 gmmK3 (by decide)).1⟩

/-- C10: the cost matrix is sized `K1 x K1` by the first model's component
count alone, and the result depends only on the first `K1` components of
the second model: second models agreeing on their first `K1` weights,
means and covariances yield the same distance. -/
theorem distribution_distance_first_components {d : ℕ} (g1 g2 g2' : GMM d)
    (h2 : g1.nComponents ≤ g2.nComponents) (h2' : g1.nComponents ≤ g2'.nComponents)
    (hw : ∀ i < g1.nComponents, g2.weightAt i = g2'.weightAt i)
    (hm : ∀ i < g1.nComponents, g2.meanAt i = g2'.meanAt i)
    (hc : ∀ i < g1.nComponents, g2.covAt i = g2'.covAt i) :
    distribution_distance g1 g2
        = Except.ok (linear_sum (fun i j : Fin g1.nComponents =>
            buildCostArray g1 g2 (↑i) (↑j))) ∧
      distribution_distance g1 g2 = distribution_distance g1 g2' := by
  have harr : ∀ a b : ℕ, buildCostArray g1 g2 a b = buildCostArray g1 g2' a b := by
    intro a b
    rw [buildCostArray_apply, buildCostArray_apply]
    by_cases h : a < g1.nComponents ∧ b < g1.nComponents
    · rw [if_pos h, if_pos h]
      unfold costEntry
      rw [hw b h.2, hm b h.2, hc b h.2]
    · rw [if_neg h, if_neg h]
  constructor
  · unfold distribution_distance
    rw [if_pos h2]
    rfl
  · unfold distribution_distance
    rw [if_pos h2, if_pos h2']
    congr 1
    unfold gmm_distance_value
    congr 1
    funext i j
    exact harr (↑i) (↑j)

/-- Witness for C10: a one-component query against a two-component and a
three-component model agreeing on the first component. -/
theorem distribution_distance_first_components_witness :
    oneGMM.nComponents ≤ gmmB2.nComponents ∧
      oneGMM.nComponents ≤ gmmB3.nComponents ∧
      distribution_distance oneGMM gmmB2 = distribution_distance oneGMM gmmB3 :=
  ⟨by decide, by decide,
    (distribution_distance_first_components oneGMM gmmB2 gmmB3 (by decide) (by decide)
      (by
        intro i hi
        have hi1 : i < 1 := hi
        interval_cases i
        rfl)
      (by
        intro i hi
        have hi1 : i < 1 := hi
        interval_cases i
        rfl)
      (by
        intro i hi
        have hi1 : i < 1 := hi
        interval_cases i
        rfl)).2⟩

/-- In `adataZero` every dense-grid cell of every gene is zero: the gene
has no observed (nonzero) spot. -/
theorem adataZero_scatter (gene : String) (r c : ℕ) :
    scatterGrid adataZero gene r c = 0 := by
  unfold scatterGrid adataZero
  simp only [List.zip_cons_cons, List.zip_nil_left]
  rw [List.filter_cons]
  split_ifs with h
  · simp
  · simp

/-- C4 counterexample: a concrete gene with zero observed spots for which
the projection with background correction requested returns an array
instead of failing with an empty-selection error. -/
theorem get_exp_array_empty_counterexample :
    (∀ r c, scatterGrid adataZero "g" r c = 0) ∧
      get_exp_array adataZero "g" true
        = Except.ok (get_exp_array_val adataZero "g" true) :=
  ⟨fun r c => adataZero_scatter "g" r c, rfl⟩

/-- C4 (amended): on a gene with zero observed (nonzero) spots,
`get_exp_array` with `remove_low_exp_spots=True` does not fail with an
empty-selection error: NumPy's mean of the empty selection is NaN (a
runtime warning, not an exception) and the function still returns an
array. -/
theorem get_exp_array_never_empty_error (adata : AData) (gene : String)
    (h : ∀ r c, scatterGrid adata gene r c = 0) :
    get_exp_array adata gene true ≠ Except.error StmError.emptySelectionError ∧
      ∃ arr, get_exp_array adata gene true = Except.ok arr :=
  ⟨fun hc => Except.noConfusion hc, ⟨_, rfl⟩⟩

/-- Witness for the amended C4 at the concrete all-zero gene. -/
theorem get_exp_array_never_empty_error_witness :
    get_exp_array adataZero "g" true ≠ Except.error StmError.emptySelectionError :=
  (get_exp_array_never_empty_error adataZero "g"
    (fun r c => adataZero_scatter "g" r c)).1

/-- C5: for every ordered pair of distinct genes, `build_ot_distance_array`
computes its off-diagonal entry as the exact minimum-cost assignment over
the all-pairs Euclidean cost matrix between the two genes' spatial-array
rows, summing the matched costs. -/
theorem build_ot_distance_array_entry (adata : AData) (gene_list : List String)
    (hnd : gene_list.Nodup) {i j : ℕ}
    (hi : i < gene_list.length) (hj : j < gene_list.length) (hij : i ≠ j) :
    (build_ot_distance_array adata gene_list).entry i j
      = linear_sum (fun a b : Fin (gridRows adata) =>
          Real.sqrt (∑ c ∈ Finset.range (gridCols adata),
            ((get_exp_array_val adata (gene_list.getD i "") false (↑a) c : ℝ)
              - (get_exp_array_val adata (gene_list.getD j "") false (↑b) c : ℝ)) ^ 2)) := by
  show buildPairwise gene_list _ i j = _
  rw [buildPairwise_apply _ _ hnd hi hj, if_neg hij]
  rfl

/-- Witness for C5 on a two-gene list over the one-spot dataset. -/
theorem build_ot_distance_array_entry_witness :
    (["a", "b"] : List String).Nodup ∧
      (build_ot_distance_array adataEx ["a", "b"]).entry 0 1
        = linear_sum (fun a b : Fin (gridRows adataEx) =>
            Real.sqrt (∑ c ∈ Finset.range (gridCols adataEx),
              ((get_exp_array_val adataEx "a" false (↑a) c : ℝ)
                - (get_exp_array_val adataEx "b" false (↑b) c : ℝ)) ^ 2)) :=
  ⟨by decide,
    build_ot_distance_array_entry adataEx ["a", "b"] (by decide)
      (by decide) (by decide) (by decide)⟩

/-- C6: each matrix-building variant (here the two cited in the claim,
`build_gmm_distance_array` and `build_mse_distance_array`) returns a square
matrix labeled by the gene ids in the given order in both dimensions, with
diagonal entries exactly `0` (never computed by the metric) and, for every
ordered pair `(i, j)` with `i != j`, the `(i, j)` entry equal to the
selected pairwise metric applied to genes `i` and `j`. -/
theorem distance_array_shape {d : ℕ} (gmm_dict : List (String × GMM d)) (adata : AData)
    (gene_list : List String)
    (hnd1 : (gmm_dict.map Prod.fst).Nodup)
    (hK : ∀ p ∈ gmm_dict, ∀ q ∈ gmm_dict, p.2.nComponents = q.2.nComponents)
    (hnd2 : gene_list.Nodup) :
    (∃ M : DistanceArray, build_gmm_distance_array gmm_dict = Except.ok M ∧
      M.labels = gmm_dict.map Prod.fst ∧
      ∀ i j, i < gmm_dict.length → j < gmm_dict.length →
        M.entry i j = if i = j then 0 else
          gmm_distance_value (gmm_dict.getD i default).2 (gmm_dict.getD j default).2) ∧
    ((build_mse_distance_array adata gene_list).labels = gene_list ∧
      ∀ i j, i < gene_list.length → j < gene_list.length →
        (build_mse_distance_array adata gene_list).entry i j = if i = j then 0 else
          mse (gridRows adata) (gridCols adata)
            (get_exp_array_val adata (gene_list.getD i "") false)
            (get_exp_array_val adata (gene_list.getD j "") false)) := by
  constructor
  · have hmem : ∀ {i : ℕ}, i < gmm_dict.length → gmm_dict.getD i default ∈ gmm_dict := by
      intro i hi
      rw [List.getD_eq_getElem?_getD, List.getElem?_eq_getElem hi, Option.getD_some]
      exact List.getElem_mem hi
    have hguard : ∀ i ∈ List.range gmm_dict.length, ∀ j ∈ List.range gmm_dict.length,
        i ≠ j → (gmm_dict.getD i default).2.nComponents
          ≤ (gmm_dict.getD j default).2.nComponents := by
      intro i hi j hj _
      rw [List.mem_range] at hi hj
      exact (hK _ (hmem hi) _ (hmem hj)).le
    unfold build_gmm_distance_array
    rw [if_pos hguard]
    refine ⟨_, rfl, rfl, ?_⟩
    intro i j hi hj
    have hlen : (gmm_dict.map Prod.fst).length = gmm_dict.length := List.length_map _ _
    show buildPairwise (gmm_dict.map Prod.fst) _ i j = _
    rw [buildPairwise_apply _ _ hnd1 (by rw [hlen]; exact hi) (by rw [hlen]; exact hj)]
  · refine ⟨rfl, ?_⟩
    intro i j hi hj
    show buildPairwise gene_list _ i j = _
    rw [buildPairwise_apply _ _ hnd2 hi hj]

/-- Witness for C6: a one-gene model dict and a one-gene list over the
one-spot dataset. -/
theorem distance_array_shape_witness :
    (∃ M : DistanceArray,
        build_gmm_distance_array [("a", oneGMM)] = Except.ok M ∧
        M.labels = ([("a", oneGMM)].map Prod.fst) ∧
        ∀ i j, i < ([("a", oneGMM)] : List (String × GMM 1)).length →
          j < ([("a", oneGMM)] : List (String × GMM 1)).length →
          M.entry i j = if i = j then 0 else
            gmm_distance_value (([("a", oneGMM)].getD i default)).2
              (([("a", oneGMM)].getD j default)).2) ∧
    ((build_mse_distance_array adataEx ["a"]).labels = ["a"] ∧
      ∀ i j, i < (["a"] : List String).length → j < (["a"] : List String).length →
        (build_mse_distance_array adataEx ["a"]).entry i j = if i = j then 0 else
          mse (gridRows adataEx) (gridCols adataEx)
            (get_exp_array_val adataEx ((["a"] : List String).getD i "") false)
            (get_exp_array_val adataEx ((["a"] : List String).getD j "") false)) :=
  distance_array_shape [("a", oneGMM)] adataEx ["a"]
    (by decide)
    (by
      intro p hp q hq
      rw [List.mem_singleton] at hp hq
      rw [hp, hq])
    (by decide)

/-- Sequencing the per-gene distance computations of
`compare_gmm_distance`: when every dict model has at least as many
components as the query, no iteration raises and the collected list pairs
each gene with its distance value. -/
theorem mapM_distribution_ok {d : ℕ} (g : GMM d) (l : List (String × GMM d))
    (h : ∀ p ∈ l, g.nComponents ≤ p.2.nComponents) :
    l.mapM (fun p => (distribution_distance g p.2).map (fun v => (p.1, v)))
      = Except.ok (l.map (fun p => (p.1, gmm_distance_value g p.2))) := by
  induction l with
  | nil => rfl
  | cons p l ih =>
    rw [List.mapM_cons]
    have hp : distribution_distance g p.2 = Except.ok (gmm_distance_value g p.2) := by
      unfold distribution_distance
      rw [if_pos (h p (List.mem_cons_self _ _))]
    rw [hp, ih (fun q hq => h q (List.mem_cons_of_mem _ hq))]
    rfl

/-- C9: for every query model and non-empty gene-to-model mapping (with
component counts compatible with the query, as the spec's model contract
requires), `compare_gmm_distance` returns one `(geneId, distance)` entry
per gene of the mapping, ordered with non-decreasing distances. -/
theorem compare_gmm_distance_sorted {d : ℕ} (g : GMM d)
    (gmm_dict : List (String × GMM d)) (hne : gmm_dict ≠ [])
    (h : ∀ p ∈ gmm_dict, g.nComponents ≤ p.2.nComponents) :
    ∃ l, compare_gmm_distance g gmm_dict = Except.ok l ∧
      l.Perm (gmm_dict.map (fun p => (p.1, gmm_distance_value g p.2))) ∧
      l.Pairwise (fun p q => p.2 ≤ q.2) := by
  unfold compare_gmm_distance
  rw [mapM_distribution_ok g gmm_dict h]
  refine ⟨_, rfl, List.mergeSort_perm _ _, ?_⟩
  have hs := @List.sorted_mergeSort (String × ℝ)
    (fun p q => decide (p.2 ≤ q.2))
    (fun a b c hab hbc => by
      simp only [decide_eq_true_eq] at hab hbc ⊢
      exact le_trans hab hbc)
    (fun a b => by
      simp only [Bool.or_eq_true, decide_eq_true_eq]
      exact le_total a.2 b.2)
    (gmm_dict.map (fun p => (p.1, gmm_distance_value g p.2)))
  exact hs.imp (fun hpq => of_decide_eq_true hpq)

/-- Witness for C9: a one-entry mapping. -/
theorem compare_gmm_distance_sorted_witness :
    ([("a", oneGMM)] : List (String × GMM 1)) ≠ [] ∧
      ∃ l, compare_gmm_distance oneGMM [("a", oneGMM)] = Except.ok l ∧
        l.Perm ([("a", oneGMM)].map (fun p => (p.1, gmm_distance_value oneGMM p.2))) ∧
        l.Pairwise (fun p q => p.2 ≤ q.2) :=
  ⟨by simp,
    compare_gmm_distance_sorted oneGMM [("a", oneGMM)] (by simp)
      (by
        intro p hp
        rw [List.mem_singleton] at hp
        rw [hp])⟩

end STMiner
